import Mathlib

/-!
Verification of the petrinet repository's core: the bit-packed explicit BFS
(`src/task_2/explicit_bfs.py`), the symbolic BDD reachability engine
(`src/task_3/symbolic_compute.py`), and the ILP + oracle search loops
(`Task4_DeadLockDetection.py`, `src/task_5/optimize.py`).

Markings are bit-packed integers (bit i = token count of place i), exactly as
in `PetriNetBitmask`.  BDD nodes are modelled by their denotations: a BDD over
the n current-state variables denotes a finite set of masks below 2^n, and
every manager operation (apply/exist/let/count) acts on that denotation.
-/

namespace PetriNet

/-- `andNot a b` is the Python expression `a & ~b` on arbitrary-precision
non-negative integers (the only complement the source ever uses is guarded by
an outer `&`). -/
def andNot (a b : Nat) : Nat := a ^^^ (a &&& b)

/-- `PetriNetBitmask.fire_mask`: enabled iff `(m & pre) == pre`; 1-safety
violated iff `(m & (post & ~pre)) != 0`; next marking `(m & ~pre) | post`. -/
def fire_mask (m pre post : Nat) : Option Nat :=
  if (m &&& pre) = pre then
    if m &&& andNot post pre = 0 then some (andNot m pre ||| post)
    else none
  else none

/-- A bit-packed net, as `PetriNetBitmask` stores it after construction:
the number of places, the initial mask, and per transition (in sorted
transition order) the pair `(pre_mask, post_mask)`. -/
structure BNet where
  numPlaces : Nat
  initialMask : Nat
  transMasks : List (Nat × Nat)

/-- Reachability from the initial mask under the 1-safe firing rule of
`fire_mask` over the net's transitions. -/
inductive ReachB (net : BNet) : Nat → Prop
  | init : ReachB net net.initialMask
  | step {m m' : Nat} {t : Nat × Nat} : ReachB net m → t ∈ net.transMasks →
      fire_mask m t.1 t.2 = some m' → ReachB net m'

/-- The truncation test `len(visited) >= limit` (`False` when no limit is
given). -/
def limitHit : Option Nat → Nat → Bool
  | none, _ => false
  | some L, len => decide (L ≤ len)

/-- The body of `reachable_markings_bfs`'s inner `for t in self.transitions`
loop: try each transition on the popped mask `m`, appending new successors to
the visited list and the queue; `Sum.inr` is the early `return visited` taken
when the limit is hit right after an insertion. -/
def bfsScan (limit : Option Nat) (m : Nat) :
    List (Nat × Nat) → List Nat → List Nat → (List Nat × List Nat) ⊕ List Nat
  | [], visited, q => Sum.inl (visited, q)
  | t :: ts, visited, q =>
    match fire_mask m t.1 t.2 with
    | none => bfsScan limit m ts visited q
    | some nm =>
      if nm ∈ visited then bfsScan limit m ts visited q
      else if limitHit limit (visited.length + 1) then Sum.inr (visited ++ [nm])
      else bfsScan limit m ts (visited ++ [nm]) (q ++ [nm])

/-- The `while q:` loop of `reachable_markings_bfs`, with fuel bounding the
number of pops (each pop was pushed on insertion into visited, so
`2 ^ numPlaces + 1` pops cover any run). -/
def bfsLoop (net : BNet) (limit : Option Nat) :
    Nat → List Nat → List Nat → List Nat
  | 0, visited, _ => visited
  | _ + 1, visited, [] => visited
  | fuel + 1, visited, m :: q =>
    match bfsScan limit m net.transMasks visited q with
    | Sum.inr visited' => visited'
    | Sum.inl (visited', q') => bfsLoop net limit fuel visited' q'

/-- `PetriNetBitmask.reachable_markings_bfs`: BFS from the initial mask, the
visited list doubling as the returned set (insertion order, no duplicates). -/
def reachable_markings_bfs (net : BNet) (limit : Option Nat) : List Nat :=
  bfsLoop net limit (2 ^ net.numPlaces + 1) [net.initialMask] [net.initialMask]

/-- One place holding a token; one transition consuming it
(`pre_mask = 1`, `post_mask = 0`). -/
def net1 : BNet := ⟨1, 1, [(1, 0)]⟩

/-- Token count of place `p` in mask `m`, as an integer. -/
def bitZ (m p : Nat) : ℤ := if m.testBit p then 1 else 0

/-- The incidence entry `C[p,t]` exactly as the ILP tasks accumulate it:
`+1` appended for every place of `post(t)`, `−1` for every place of `pre(t)`,
so a self-looped place receives `1 - 1 = 0`. -/
def incC (net : BNet) (p : Nat) (t : Fin net.transMasks.length) : ℤ :=
  (if (net.transMasks.get t).2.testBit p then 1 else 0) -
    (if (net.transMasks.get t).1.testBit p then 1 else 0)

/-- The disjunct `Tr_t(x, y)` that `symbolic_reachability` builds for one
transition (pre/post as index lists), read on the pair of bit-packed
markings (x = current, y = next): guard `⋀_{i∈pre} xᵢ`, then per place
`¬yᵢ` when consumed, `yᵢ` when produced, else the frame `yᵢ ↔ xᵢ`. -/
def trT (n : Nat) (pre post : List Nat) (x y : Nat) : Bool :=
  pre.all (fun i => x.testBit i) &&
  (List.range n).all (fun i =>
    if i ∈ pre ∧ i ∉ post then !y.testBit i
    else if i ∈ post then y.testBit i
    else y.testBit i == x.testBit i)

/-- The disjunct `R_t(x, x')` that `SymbolicPetriNet.build_transition_relation`
builds: guard on pre places, `¬x'ᵢ` for consumed places, `x'ᵢ` for pure
outputs, and the xnor frame only on places outside `pre ∪ post`. -/
def trT_cls (n : Nat) (pre post : List Nat) (x y : Nat) : Bool :=
  pre.all (fun i => x.testBit i) &&
  (pre.all fun i => if i ∈ post then true else !y.testBit i) &&
  (post.all fun i => if i ∈ pre then true else y.testBit i) &&
  ((List.range n).all fun i =>
    if i ∈ pre ∨ i ∈ post then true else y.testBit i == x.testBit i)

/-- The symbolic engine's input: number of places, the initial marking's bits
in sorted place order, and per transition its pre/post index lists. -/
structure SNet where
  numPlaces : Nat
  initBits : List Bool
  strans : List (List Nat × List Nat)

/-- The global relation `Tr = ⋁_t Tr_t` of `symbolic_reachability`. -/
def trAny (net : SNet) (x y : Nat) : Bool :=
  net.strans.any fun t => trT net.numPlaces t.1 t.2 x y

/-- Denotation of the `Init(x)` cube over the `numPlaces` current-state
variables: the masks below `2 ^ numPlaces` agreeing with the initial bits. -/
def initSet (net : SNet) : Finset Nat :=
  (Finset.range (2 ^ net.numPlaces)).filter
    (fun m => ∀ i < net.numPlaces, m.testBit i = net.initBits.getD i false)

/-- Denotation of the image step `rename(∃x. S(x) ∧ Tr(x,y))`: the next-state
masks some marking of `S` relates to. -/
def imageS (net : SNet) (S : Finset Nat) : Finset Nat :=
  (Finset.range (2 ^ net.numPlaces)).filter
    (fun y => ∃ x ∈ S, trAny net x y = true)

/-- One update of the fixed-point loop: `R := R ∨ (Image(R) ∖ R)`. -/
def symStep (net : SNet) (R : Finset Nat) : Finset Nat :=
  R ∪ (imageS net R \ R)

/-- The `while True` fixed-point loop of `symbolic_reachability`: exit when
`Image(R) ∖ R` is the false constant, else accumulate; the fuel bounds the
iteration count (each pass grows `R`, which lives below `2 ^ numPlaces`). -/
def symLoop (net : SNet) : Nat → Finset Nat → Finset Nat
  | 0, R => R
  | fuel + 1, R =>
    if imageS net R \ R = ∅ then R
    else symLoop net fuel (R ∪ (imageS net R \ R))

/-- The reachable set `R` the symbolic engine returns; its `card` is what
`bdd.count(R, nvars=num_places)` reports. -/
def symbolic_reach (net : SNet) : Finset Nat :=
  symLoop net (2 ^ net.numPlaces) (initSet net)

/-- The k-th iterate of the fixed-point loop. -/
def iterR (net : SNet) : Nat → Finset Nat
  | 0 => initSet net
  | k + 1 => symStep net (iterR net k)

/-- The 2-place net whose initial marking fills both places, with one
transition consuming place 1 and producing into place 0 — bitmask form. -/
def net2B : BNet := ⟨2, 3, [(2, 1)]⟩

/-- The same net in the symbolic engine's form. -/
def net2S : SNet := ⟨2, [true, true], [([1], [0])]⟩

/-- `vars_with_1` of a candidate marking: the places it marks. -/
def S1 {n : ℕ} (mstar : Fin n → Bool) : Finset (Fin n) :=
  Finset.univ.filter fun i => mstar i = true

/-- `vars_with_0` of a candidate marking: the places it leaves empty. -/
def S0 {n : ℕ} (mstar : Fin n → Bool) : Finset (Fin n) :=
  Finset.univ.filter fun i => mstar i = false

/-- The value a binary ILP variable takes under marking `m`. -/
def mval {n : ℕ} (m : Fin n → Bool) (i : Fin n) : ℤ := if m i then 1 else 0

/-- The no-good cut injected for a rejected candidate `mstar`:
`Σ_{i∈S₁} Mᵢ − Σ_{i∈S₀} Mᵢ ≤ |S₁| − 1`, evaluated at marking `m`. -/
def cutSat {n : ℕ} (mstar m : Fin n → Bool) : Prop :=
  (∑ i ∈ S1 mstar, mval m i) - (∑ i ∈ S0 mstar, mval m i) ≤
    ((S1 mstar).card : ℤ) - 1

/-- The objective `Maximize Σ weight_p · M_p` of `optimize_reachable_marking`. -/
def scoreW {n : ℕ} (w : Fin n → ℤ) (m : Fin n → Bool) : ℤ :=
  ∑ i, if m i then w i else 0

/-- The outer counterexample-guided loop shared by the ILP tasks: `pick`
abstracts one branch-and-bound solve over the current feasible set (the
state-equation polytope minus all injected cuts), the oracle is the BDD
membership test, and a rejected candidate's no-good cut removes exactly that
candidate (theorem `cut_excludes_exactly`), here `Finset.erase`. -/
def ilpLoop {n : ℕ} (oracle : (Fin n → Bool) → Bool)
    (score : (Fin n → Bool) → ℤ)
    (pick : (F : Finset (Fin n → Bool)) → Option {x : Fin n → Bool // x ∈ F})
    (F : Finset (Fin n → Bool)) : Option ((Fin n → Bool) × ℤ) :=
  match pick F with
  | none => none
  | some x =>
    if oracle x.val then some (x.val, score x.val)
    else ilpLoop oracle score pick (F.erase x.val)
termination_by F.card
decreasing_by exact Finset.card_erase_lt_of_mem x.property

/-- Bit-pack a list of booleans (head = bit 0), the inverse direction of
`mask_to_tuple`. -/
def maskOfBits : List Bool → Nat
  | [] => 0
  | b :: bs => (if b then 1 else 0) + 2 * maskOfBits bs

/-- `pack` a tuple marking into its bitmask: bit i = m[i]. -/
def packT {n : ℕ} (m : Fin n → Bool) : Nat := maskOfBits (List.ofFn m)

/-- All `2 ^ n` tuple markings, enumerated by mask. -/
def allMarkings (n : ℕ) : List (Fin n → Bool) :=
  (List.range (2 ^ n)).map (fun v => fun i => v.testBit i.val)

/-- A concrete best-first solver: return a feasible point of highest score
(realizing the branch-and-bound collaborator's guarantee). -/
def pickMax {n : ℕ} (score : (Fin n → Bool) → ℤ)
    (F : Finset (Fin n → Bool)) : Option {x : Fin n → Bool // x ∈ F} :=
  match h : ((allMarkings n).filter (fun m => decide (m ∈ F))).argmax score with
  | none => none
  | some x =>
    some ⟨x, of_decide_eq_true
      (List.mem_filter.mp (List.argmax_mem (Option.mem_def.mpr h))).2⟩

/-- Weight vector of the C4 witness instance. -/
def wOne : Fin 1 → ℤ := fun _ => 1

/-- One-place witness instance: every binary marking is reachable. -/
def reachOne : Finset (Fin 1 → Bool) := Finset.univ

/-- Oracle of the witness instance. -/
def oracleOne : (Fin 1 → Bool) → Bool := fun m => decide (m ∈ reachOne)

/-- A linear constraint row of the deadlock ILP (Constraints A): either the
input-starvation inequality alone, or the big-M disjunction over the
selector z for a transition with pure outputs. -/
inductive DCon where
  | starvation : List Nat → DCon
  | disjunctive : List Nat → List Nat → DCon

/-- The model-build loop of `find_deadlock_ilp_bdd` (Constraints A): per
transition, compute the pure outputs `set(post) - set(pre)`; when empty and
the pre-set is also empty the transition is always enabled and the whole
build returns `None` at once; otherwise accumulate the constraint row. -/
def buildDeadlockCons : List (List Nat × List Nat) → Option (List DCon)
  | [] => some []
  | t :: ts =>
    if t.2.filter (fun i => decide (i ∉ t.1)) = [] then
      if t.1 = [] then none
      else (buildDeadlockCons ts).map (fun cs => DCon.starvation t.1 :: cs)
    else
      (buildDeadlockCons ts).map
        (fun cs => DCon.disjunctive t.1 (t.2.filter (fun i => decide (i ∉ t.1))) :: cs)

/-- `find_deadlock_ilp_bdd`, with the solve/oracle loop over the built model
abstracted as `search`: the structural short-circuit happens before any
solving. -/
def find_deadlock (trans : List (List Nat × List Nat))
    (search : List DCon → Option (List Bool)) : Option (List Bool) :=
  match buildDeadlockCons trans with
  | none => none
  | some cs => search cs

/-- `PetriNetBitmask.mask_to_tuple`: the tuple over the sorted place order
whose entry i is bit i of the mask. -/
def mask_to_tuple (n : ℕ) (mask : Nat) : Fin n → Bool := fun i => mask.testBit i.val

/-- `PetriNet.fire` on tuple markings, with a transition's pre/post place-index
sets read off the same masks the bitmask class builds from the arcs: fail when
some pre place is empty; zero all pre places; fail when some (post) place is
already marked after that zeroing; set all post places. -/
def fireT {n : ℕ} (m : Fin n → Bool) (pre post : Nat) : Option (Fin n → Bool) :=
  if ∃ p : Fin n, pre.testBit p.val = true ∧ m p = false then none
  else if ∃ p : Fin n, post.testBit p.val = true ∧
      (if pre.testBit p.val then false else m p) = true then none
  else some (fun p => if post.testBit p.val then true
    else if pre.testBit p.val then false else m p)

/-- Weights (0, −1, 0, 0) for the maximization run on the four-place net. -/
def w4 : Fin 4 → ℤ := fun i => if i.val = 1 then -1 else 0

/-- Four places, M₀ = (1,1,0,0); t1: pre={p1}, post={p0}; t2: pre={p0,p3},
post={p2}; t3: pre={p2}, post={p3} — bitmask form (no transition is enabled
at M₀, so M₀ is the only reachable marking). -/
def net4B : BNet := ⟨4, 3, [(2, 1), (9, 4), (4, 8)]⟩

/-- The same four-place net in the symbolic engine's form. -/
def net4S : SNet := ⟨4, [true, true, false, false], [([1], [0]), ([0, 3], [2]), ([2], [3])]⟩

/-- The binary solutions of this net's state equation (proved exact in
`stateEq_iff_mem_F4`): the ILP relaxation's feasible markings. -/
def F4 : Finset (Fin 4 → Bool) :=
  {mask_to_tuple 4 0, mask_to_tuple 4 1, mask_to_tuple 4 2, mask_to_tuple 4 3}

/-- The oracle exactly as `optimize_reachable_marking` queries it: substitute
the candidate's bits into the symbolic engine's R and test for manager-true —
denotationally, membership of the packed marking in R's satisfying set. -/
def oracle4 : (Fin 4 → Bool) → Bool := fun m => decide (packT m ∈ symbolic_reach net4S)

theorem testBit_andNot (a b i : Nat) :
    (andNot a b).testBit i = (a.testBit i && !b.testBit i) := by
  simp only [andNot, Nat.testBit_xor, Nat.testBit_land]
  cases a.testBit i <;> cases b.testBit i <;> rfl

theorem land_eq_right_iff (m pre : Nat) :
    (m &&& pre) = pre ↔ ∀ i, pre.testBit i = true → m.testBit i = true := by
  constructor
  · intro h i hp
    have := congrArg (fun x => x.testBit i) h
    simp only [Nat.testBit_land, hp, Bool.and_true] at this
    exact this
  · intro h
    apply Nat.eq_of_testBit_eq
    intro i
    simp only [Nat.testBit_land]
    cases hp : pre.testBit i
    · simp
    · simp [h i hp]

theorem eq_zero_iff_testBit (m : Nat) :
    m = 0 ↔ ∀ i, m.testBit i = false := by
  constructor
  · rintro rfl i; exact Nat.zero_testBit i
  · intro h
    apply Nat.eq_of_testBit_eq
    intro i; simp [h i, Nat.zero_testBit]

theorem fire_mask_isSome_iff (m pre post : Nat) :
    (fire_mask m pre post).isSome =
      ((m &&& pre) = pre ∧ m &&& andNot post pre = 0 : Prop) := by
  simp only [fire_mask]
  by_cases h1 : (m &&& pre) = pre <;> by_cases h2 : m &&& andNot post pre = 0 <;>
    simp [h1, h2]

theorem fire_mask_eq_some_iff (m pre post r : Nat) :
    fire_mask m pre post = some r ↔
      ((m &&& pre) = pre ∧ m &&& andNot post pre = 0 ∧
        r = (andNot m pre ||| post)) := by
  simp only [fire_mask]
  by_cases h1 : (m &&& pre) = pre <;> by_cases h2 : m &&& andNot post pre = 0 <;>
    simp [h1, h2, eq_comm]

theorem safety_check_iff (m pre post : Nat) :
    m &&& andNot post pre = 0 ↔
      ∀ i, post.testBit i = true → pre.testBit i = false →
        m.testBit i = false := by
  rw [eq_zero_iff_testBit]
  constructor
  · intro h i hpost hpre
    have := h i
    simp only [Nat.testBit_land, testBit_andNot, hpost, hpre] at this
    simpa using this
  · intro h i
    simp only [Nat.testBit_land, testBit_andNot]
    cases hpost : post.testBit i
    · simp
    · cases hpre : pre.testBit i
      · simp [h i hpost hpre]
      · simp

theorem fire_mask_some_testBit (m pre post r : Nat)
    (h : fire_mask m pre post = some r) (i : Nat) :
    r.testBit i = (post.testBit i || (!pre.testBit i && m.testBit i)) := by
  obtain ⟨-, -, rfl⟩ := (fire_mask_eq_some_iff m pre post r).mp h
  simp only [Nat.testBit_lor, testBit_andNot]
  cases post.testBit i <;> cases pre.testBit i <;> cases m.testBit i <;> rfl

/-- C3: `fire_mask` returns a next mask iff `(m & pre) == pre` and
`(m & (post & ~pre)) == 0`, in which case the result is `(m & ~pre) | post`;
bitwise this is exactly the 1-safe firing rule — every place of `pre` must be
marked and every pure-output place (in `post`, not in `pre`) empty, and the
successor marks a place iff it is produced (`post`, which keeps self-looped
places at 1) or was marked and is not consumed; otherwise `None`. -/
theorem fire_mask_spec (m pre post : Nat) :
    (fire_mask m pre post = some (andNot m pre ||| post) ↔
      ((m &&& pre) = pre ∧ m &&& andNot post pre = 0))
    ∧ ((fire_mask m pre post).isSome =
        ((∀ i, pre.testBit i = true → m.testBit i = true) ∧
         (∀ i, post.testBit i = true → pre.testBit i = false →
            m.testBit i = false) : Prop))
    ∧ (∀ r, fire_mask m pre post = some r →
        ∀ i, r.testBit i = (post.testBit i || (!pre.testBit i && m.testBit i))) := by
  refine ⟨?_, ?_, ?_⟩
  · rw [fire_mask_eq_some_iff]
    simp
  · rw [fire_mask_isSome_iff, land_eq_right_iff, safety_check_iff]
  · intro r h i
    exact fire_mask_some_testBit m pre post r h i

theorem bfsScan_sound (net : BNet) (limit : Option Nat) (m : Nat)
    (ts : List (Nat × Nat)) (hts : ∀ t ∈ ts, t ∈ net.transMasks)
    (visited q : List Nat) (hm : ReachB net m)
    (hv : ∀ x ∈ visited, ReachB net x) (hq : ∀ x ∈ q, ReachB net x) :
    (∀ v' q', bfsScan limit m ts visited q = Sum.inl (v', q') →
      (∀ x ∈ v', ReachB net x) ∧ (∀ x ∈ q', ReachB net x)) ∧
    (∀ v', bfsScan limit m ts visited q = Sum.inr v' →
      ∀ x ∈ v', ReachB net x) := by
  induction ts generalizing visited q with
  | nil =>
    refine ⟨?_, ?_⟩
    · intro v' q' h
      simp only [bfsScan] at h
      obtain ⟨rfl, rfl⟩ : visited = v' ∧ q = q' := by
        exact ⟨congrArg Prod.fst (Sum.inl.inj h), congrArg Prod.snd (Sum.inl.inj h)⟩
      exact ⟨hv, hq⟩
    · intro v' h
      simp only [bfsScan] at h
      cases h
  | cons t ts ih =>
    have htm : t ∈ net.transMasks := hts t (List.mem_cons_self t ts)
    have hts' : ∀ u ∈ ts, u ∈ net.transMasks := fun u hu =>
      hts u (List.mem_cons_of_mem t hu)
    simp only [bfsScan]
    cases hfire : fire_mask m t.1 t.2 with
    | none => exact ih hts' visited q hv hq
    | some nm =>
      have hnm : ReachB net nm := ReachB.step hm htm hfire
      by_cases hmem : nm ∈ visited
      · simp only [hmem, if_true]
        exact ih hts' visited q hv hq
      · simp only [hmem, if_false]
        have hv' : ∀ x ∈ visited ++ [nm], ReachB net x := by
          intro x hx
          rcases List.mem_append.mp hx with hx | hx
          · exact hv x hx
          · rw [List.mem_singleton.mp hx]; exact hnm
        cases hhit : limitHit limit (visited.length + 1)
        · simp only [Bool.false_eq_true, if_false]
          have hq' : ∀ x ∈ q ++ [nm], ReachB net x := by
            intro x hx
            rcases List.mem_append.mp hx with hx | hx
            · exact hq x hx
            · rw [List.mem_singleton.mp hx]; exact hnm
          exact ih hts' (visited ++ [nm]) (q ++ [nm]) hv' hq'
        · simp only [if_true]
          refine ⟨?_, ?_⟩
          · intro v' q' h; cases h
          · intro v' h
            obtain rfl : visited ++ [nm] = v' := Sum.inr.inj h
            exact hv'

theorem bfsLoop_sound (net : BNet) (limit : Option Nat) (fuel : Nat)
    (visited q : List Nat) (hv : ∀ x ∈ visited, ReachB net x)
    (hq : ∀ x ∈ q, ReachB net x) :
    ∀ x ∈ bfsLoop net limit fuel visited q, ReachB net x := by
  induction fuel generalizing visited q with
  | zero => simpa [bfsLoop] using hv
  | succ fuel ih =>
    cases q with
    | nil => simpa [bfsLoop] using hv
    | cons m q =>
      have hm : ReachB net m := hq m (List.mem_cons_self m q)
      have hq' : ∀ x ∈ q, ReachB net x := fun x hx =>
        hq x (List.mem_cons_of_mem m hx)
      have hscan := bfsScan_sound net limit m net.transMasks
        (fun t ht => ht) visited q hm hv hq'
      simp only [bfsLoop]
      cases hres : bfsScan limit m net.transMasks visited q with
      | inl p =>
        have := hscan.1 p.1 p.2 (by rw [hres])
        exact ih p.1 p.2 this.1 this.2
      | inr v' => exact hscan.2 v' (by rw [hres])

/-- Everything the BFS returns is reachable, with any limit (including
none). -/
theorem bfs_sound (net : BNet) (limit : Option Nat) :
    ∀ x ∈ reachable_markings_bfs net limit, ReachB net x := by
  apply bfsLoop_sound
  · intro x hx; rw [List.mem_singleton.mp hx]; exact ReachB.init
  · intro x hx; rw [List.mem_singleton.mp hx]; exact ReachB.init

theorem bfsScan_mem (limit : Option Nat) (m : Nat) (ts : List (Nat × Nat))
    (visited q : List Nat) (x : Nat) (hx : x ∈ visited) :
    (∀ v' q', bfsScan limit m ts visited q = Sum.inl (v', q') → x ∈ v') ∧
    (∀ v', bfsScan limit m ts visited q = Sum.inr v' → x ∈ v') := by
  induction ts generalizing visited q with
  | nil =>
    refine ⟨?_, ?_⟩
    · intro v' q' h
      simp only [bfsScan] at h
      obtain rfl : visited = v' := congrArg Prod.fst (Sum.inl.inj h)
      exact hx
    · intro v' h
      simp only [bfsScan] at h
      cases h
  | cons t ts ih =>
    simp only [bfsScan]
    cases hfire : fire_mask m t.1 t.2 with
    | none => exact ih visited q hx
    | some nm =>
      by_cases hmem : nm ∈ visited
      · simp only [hmem, if_true]
        exact ih visited q hx
      · simp only [hmem, if_false]
        have hx' : x ∈ visited ++ [nm] := List.mem_append_left _ hx
        cases limitHit limit (visited.length + 1)
        · simp only [Bool.false_eq_true, if_false]
          exact ih (visited ++ [nm]) (q ++ [nm]) hx'
        · simp only [if_true]
          refine ⟨?_, ?_⟩
          · intro v' q' h; cases h
          · intro v' h
            obtain rfl : visited ++ [nm] = v' := Sum.inr.inj h
            exact hx'

theorem bfsLoop_mem (net : BNet) (limit : Option Nat) (fuel : Nat)
    (visited q : List Nat) (x : Nat) (hx : x ∈ visited) :
    x ∈ bfsLoop net limit fuel visited q := by
  induction fuel generalizing visited q with
  | zero => simpa [bfsLoop] using hx
  | succ fuel ih =>
    cases q with
    | nil => simpa [bfsLoop] using hx
    | cons m q =>
      have hscan := bfsScan_mem limit m net.transMasks visited q x hx
      simp only [bfsLoop]
      cases hres : bfsScan limit m net.transMasks visited q with
      | inl p => exact ih p.1 p.2 (hscan.1 p.1 p.2 (by rw [hres]))
      | inr v' => exact hscan.2 v' (by rw [hres])

theorem bfsScan_card (L : Nat) (m : Nat) (ts : List (Nat × Nat))
    (visited q : List Nat) (h : visited.length ≤ max (L - 1) 1) :
    (∀ v' q', bfsScan (some L) m ts visited q = Sum.inl (v', q') →
      v'.length ≤ max (L - 1) 1) ∧
    (∀ v', bfsScan (some L) m ts visited q = Sum.inr v' →
      v'.length ≤ max L 2) := by
  induction ts generalizing visited q with
  | nil =>
    refine ⟨?_, ?_⟩
    · intro v' q' hres
      simp only [bfsScan] at hres
      obtain rfl : visited = v' := congrArg Prod.fst (Sum.inl.inj hres)
      exact h
    · intro v' hres
      simp only [bfsScan] at hres
      cases hres
  | cons t ts ih =>
    simp only [bfsScan]
    cases fire_mask m t.1 t.2 with
    | none => exact ih visited q h
    | some nm =>
      by_cases hmem : nm ∈ visited
      · simp only [hmem, if_true]
        exact ih visited q h
      · simp only [hmem, if_false]
        cases hhit : limitHit (some L) (visited.length + 1)
        · simp only [Bool.false_eq_true, if_false]
          have hlt : ¬ L ≤ visited.length + 1 := by
            simpa [limitHit] using hhit
          refine ih (visited ++ [nm]) (q ++ [nm]) ?_
          simp only [List.length_append, List.length_singleton]
          omega
        · simp only [if_true]
          have hge : L ≤ visited.length + 1 := by
            simpa [limitHit] using hhit
          refine ⟨?_, ?_⟩
          · intro v' q' hres; cases hres
          · intro v' hres
            obtain rfl : visited ++ [nm] = v' := Sum.inr.inj hres
            simp only [List.length_append, List.length_singleton]
            omega

theorem bfsLoop_card (net : BNet) (L : Nat) (fuel : Nat)
    (visited q : List Nat) (h : visited.length ≤ max (L - 1) 1) :
    (bfsLoop net (some L) fuel visited q).length ≤ max L 2 := by
  induction fuel generalizing visited q with
  | zero =>
    simp only [bfsLoop]
    omega
  | succ fuel ih =>
    cases q with
    | nil =>
      simp only [bfsLoop]
      omega
    | cons m q =>
      have hscan := bfsScan_card L m net.transMasks visited q h
      simp only [bfsLoop]
      cases hres : bfsScan (some L) m net.transMasks visited q with
      | inl p => exact ih p.1 p.2 (hscan.1 p.1 p.2 (by rw [hres]))
      | inr v' => exact hscan.2 v' (by rw [hres])

/-- C6 (amended): the set returned by the bitmask BFS under a positive limit
contains the initial marking and only reachable markings, and has at most
`max limit 2` elements — for `limit ≥ 2` that is at most `limit`, but for
`limit = 1` a second marking can be returned, because the truncation test
`len(visited) >= limit` runs only after an insertion. -/
theorem bfs_limit_spec (net : BNet) (L : Nat) (hL : 0 < L) :
    net.initialMask ∈ reachable_markings_bfs net (some L)
    ∧ (∀ m ∈ reachable_markings_bfs net (some L), ReachB net m)
    ∧ (reachable_markings_bfs net (some L)).length ≤ max L 2 := by
  refine ⟨?_, bfs_sound net (some L), ?_⟩
  · exact bfsLoop_mem net (some L) _ _ _ _ (List.mem_singleton_self _)
  · apply bfsLoop_card
    simp only [List.length_singleton]
    omega

/-- C6, counterexample to the claim as stated: on `net1` with `limit = 1`
the BFS returns two markings, exceeding the limit. -/
theorem bfs_limit_counterexample :
    (reachable_markings_bfs net1 (some 1)).length = 2 ∧
      ¬ (reachable_markings_bfs net1 (some 1)).length ≤ 1 := by decide

/-- C6 witness: the amended statement at `net1`, `limit = 1`. -/
theorem bfs_limit_spec_witness :
    net1.initialMask ∈ reachable_markings_bfs net1 (some 1)
    ∧ (∀ m ∈ reachable_markings_bfs net1 (some 1), ReachB net1 m)
    ∧ (reachable_markings_bfs net1 (some 1)).length ≤ max 1 2 :=
  bfs_limit_spec net1 1 (by decide)

theorem fire_mask_state_eq (m pre post mn : Nat)
    (h : fire_mask m pre post = some mn) (p : Nat) :
    bitZ mn p = bitZ m p +
      ((if post.testBit p then (1 : ℤ) else 0) -
        (if pre.testBit p then (1 : ℤ) else 0)) := by
  have hbit := fire_mask_some_testBit m pre post mn h p
  obtain ⟨h1, h2, -⟩ := (fire_mask_eq_some_iff m pre post mn).mp h
  have hen := (land_eq_right_iff m pre).mp h1
  have hsafe := (safety_check_iff m pre post).mp h2
  cases hpre : pre.testBit p with
  | false =>
    cases hpost : post.testBit p with
    | false =>
      simp only [hpre, hpost, Bool.false_or, Bool.not_false, Bool.true_and] at hbit
      simp [bitZ, hbit]
    | true =>
      have hm : m.testBit p = false := hsafe p hpost hpre
      simp only [hpre, hpost, Bool.true_or] at hbit
      simp [bitZ, hbit, hm]
  | true =>
    have hm : m.testBit p = true := hen p hpre
    cases hpost : post.testBit p with
    | false =>
      simp only [hpre, hpost, Bool.false_or, Bool.not_true, Bool.false_and] at hbit
      simp [bitZ, hbit, hm]
    | true =>
      simp only [hpre, hpost, Bool.true_or] at hbit
      simp [bitZ, hbit, hm]

theorem reach_state_equation (net : BNet) (m : Nat) (h : ReachB net m) :
    ∃ σ : Fin net.transMasks.length → ℕ,
      ∀ p : Nat, bitZ m p =
        bitZ net.initialMask p + ∑ t, incC net p t * (σ t : ℤ) := by
  induction h with
  | init =>
    refine ⟨fun _ => 0, fun p => ?_⟩
    simp
  | @step m m' t hr ht hf ih =>
    obtain ⟨σ, hσ⟩ := ih
    obtain ⟨i, hi⟩ := List.mem_iff_get.mp ht
    refine ⟨fun j => σ j + if j = i then 1 else 0, fun p => ?_⟩
    have hstep := fire_mask_state_eq m t.1 t.2 m' hf p
    have hinc : incC net p i =
        (if t.2.testBit p then (1 : ℤ) else 0) -
          (if t.1.testBit p then (1 : ℤ) else 0) := by
      have hi2 : net.transMasks[(i : Nat)] = t := by
        simpa [List.get_eq_getElem] using hi
      simp [incC, hi2]
    have hsum : ∑ j, incC net p j * ((σ j + if j = i then 1 else 0 : ℕ) : ℤ) =
        (∑ j, incC net p j * (σ j : ℤ)) + incC net p i := by
      have : ∀ j : Fin net.transMasks.length,
          incC net p j * ((σ j + if j = i then 1 else 0 : ℕ) : ℤ) =
            incC net p j * (σ j : ℤ) +
              (if j = i then incC net p j else 0) := by
        intro j
        by_cases hj : j = i <;> simp [hj] <;> ring
      rw [Finset.sum_congr rfl (fun j _ => this j), Finset.sum_add_distrib,
        Finset.sum_ite_eq' Finset.univ i (fun j => incC net p j)]
      simp
    rw [hsum, hstep, hσ p, hinc]
    ring

/-- C8: every marking in the BFS-reachable set (run without a limit) admits a
non-negative integer firing-count vector σ with `M = M₀ + C·σ`, for the
incidence matrix the ILP tasks build (`+1` per post place, `−1` per pre
place, cancelling on self-loops). -/
theorem state_equation_necessity (net : BNet) (m : Nat)
    (h : m ∈ reachable_markings_bfs net none) :
    ∃ σ : Fin net.transMasks.length → ℕ,
      ∀ p : Nat, bitZ m p =
        bitZ net.initialMask p + ∑ t, incC net p t * (σ t : ℤ) :=
  reach_state_equation net m (bfs_sound net none m h)

/-- C8 witness: the state equation for the marking the BFS reaches on `net1`
by firing its only transition. -/
theorem state_equation_necessity_witness :
    ∃ σ : Fin net1.transMasks.length → ℕ,
      ∀ p : Nat, bitZ 0 p =
        bitZ net1.initialMask p + ∑ t, incC net1 p t * (σ t : ℤ) :=
  state_equation_necessity net1 0 (by decide)

theorem imageS_subset_range (net : SNet) (S : Finset Nat) :
    imageS net S ⊆ Finset.range (2 ^ net.numPlaces) :=
  Finset.filter_subset _ _

theorem iterR_subset_range (net : SNet) (k : Nat) :
    iterR net k ⊆ Finset.range (2 ^ net.numPlaces) := by
  induction k with
  | zero => exact Finset.filter_subset _ _
  | succ k ih =>
    refine Finset.union_subset ih ?_
    exact (Finset.sdiff_subset).trans (imageS_subset_range net _)

theorem iterR_card_grows (net : SNet) (k : Nat)
    (h : ∀ j < k, imageS net (iterR net j) \ iterR net j ≠ ∅) :
    k ≤ (iterR net k).card := by
  induction k with
  | zero => exact Nat.zero_le _
  | succ k ih =>
    have hk := h k (Nat.lt_succ_self k)
    have hdisj : Disjoint (iterR net k) (imageS net (iterR net k) \ iterR net k) :=
      Finset.disjoint_sdiff
    have hcard : (iterR net (k + 1)).card =
        (iterR net k).card + (imageS net (iterR net k) \ iterR net k).card :=
      Finset.card_union_of_disjoint hdisj
    have hpos : 0 < (imageS net (iterR net k) \ iterR net k).card :=
      Finset.card_pos.mpr (Finset.nonempty_iff_ne_empty.mpr hk)
    have := ih (fun j hj => h j (Nat.lt_succ_of_lt hj))
    omega

theorem symLoop_reaches_fixpoint (net : SNet) (fuel : Nat) (R : Finset Nat)
    (hR : R ⊆ Finset.range (2 ^ net.numPlaces))
    (hfuel : 2 ^ net.numPlaces ≤ fuel + R.card) :
    imageS net (symLoop net fuel R) \ symLoop net fuel R = ∅ := by
  induction fuel generalizing R with
  | zero =>
    have hcard : (Finset.range (2 ^ net.numPlaces)).card ≤ R.card := by
      simpa using hfuel
    have hRfull : R = Finset.range (2 ^ net.numPlaces) :=
      Finset.eq_of_subset_of_card_le hR hcard
    simp only [symLoop]
    rw [Finset.sdiff_eq_empty_iff_subset, hRfull]
    exact imageS_subset_range net _
  | succ fuel ih =>
    simp only [symLoop]
    by_cases hfix : imageS net R \ R = ∅
    · simpa [hfix] using hfix
    · simp only [hfix, if_false]
      have hdisj : Disjoint R (imageS net R \ R) := Finset.disjoint_sdiff
      have hpos : 0 < (imageS net R \ R).card :=
        Finset.card_pos.mpr (Finset.nonempty_iff_ne_empty.mpr hfix)
      refine ih (R ∪ (imageS net R \ R)) ?_ ?_
      · exact Finset.union_subset hR
          ((Finset.sdiff_subset).trans (imageS_subset_range net _))
      · rw [Finset.card_union_of_disjoint hdisj]
        omega

/-- C9: for every net the fixed-point computation is monotone
(`R ⊆ R ∨ Image(R)`), every iterate stays inside the `2 ^ |P|` marking
space, some iterate within the first `2 ^ |P|` reaches the exit condition
`Image(R) ∖ R = false`, and the loop as run (with that much fuel) indeed
stops at a fixed point. -/
theorem symbolic_fixpoint_termination (net : SNet) :
    (∀ k, iterR net k ⊆ iterR net (k + 1))
    ∧ (∀ k, iterR net k ⊆ Finset.range (2 ^ net.numPlaces))
    ∧ (∃ k, k ≤ 2 ^ net.numPlaces ∧
        imageS net (iterR net k) \ iterR net k = ∅)
    ∧ imageS net (symbolic_reach net) \ symbolic_reach net = ∅ := by
  refine ⟨fun k => Finset.subset_union_left, iterR_subset_range net, ?_, ?_⟩
  · by_contra hnone
    push_neg at hnone
    have hall : ∀ j < 2 ^ net.numPlaces + 1,
        imageS net (iterR net j) \ iterR net j ≠ ∅ := by
      intro j hj
      exact hnone j (by omega)
    have hgrow := iterR_card_grows net (2 ^ net.numPlaces + 1) hall
    have hbound : (iterR net (2 ^ net.numPlaces + 1)).card ≤ 2 ^ net.numPlaces := by
      have := Finset.card_le_card (iterR_subset_range net (2 ^ net.numPlaces + 1))
      simpa using this
    omega
  · exact symLoop_reaches_fixpoint net _ _ (Finset.filter_subset _ _) (by omega)

/-- C1, at the failing input: place 0 is a pure output
(`0 ∈ post ∖ pre`) of the transition `pre = [1]`, `post = [0]`, and the
current marking 3 has place 0 already full — yet the pair
(current = 3, next = 1) satisfies the disjunct `Tr_t` built by both symbolic
code paths, because neither conjoins the 1-safety clause `¬x₀`. -/
theorem tr_allows_occupied_pure_output :
    ((0 : Nat) ∈ ([0] : List Nat) ∧ (0 : Nat) ∉ ([1] : List Nat))
    ∧ Nat.testBit 3 0 = true
    ∧ trT 2 [1] [0] 3 1 = true
    ∧ trT_cls 2 [1] [0] 3 1 = true := by decide

/-- C2, at the failing input: on `net2B`/`net2S` the explicit bitmask BFS
finds exactly one reachable marking, while the symbolic engine's fixed point
contains two satisfying assignments — the unguarded `Tr_t` lets the
transition fire out of the 1-safety-blocked marking 3. -/
theorem explicit_symbolic_count_disagree :
    (reachable_markings_bfs net2B none).length = 1
    ∧ (symbolic_reach net2S).card = 2 := by decide

theorem mval_nonneg {n : ℕ} (m : Fin n → Bool) (i : Fin n) : 0 ≤ mval m i := by
  unfold mval; split <;> norm_num

theorem mval_le_one {n : ℕ} (m : Fin n → Bool) (i : Fin n) : mval m i ≤ 1 := by
  unfold mval; split <;> norm_num

theorem sum_mval_le_card {n : ℕ} (m : Fin n → Bool) (s : Finset (Fin n)) :
    ∑ i ∈ s, mval m i ≤ (s.card : ℤ) := by
  calc ∑ i ∈ s, mval m i ≤ ∑ _i ∈ s, (1 : ℤ) :=
        Finset.sum_le_sum (fun i _ => mval_le_one m i)
    _ = (s.card : ℤ) := by simp

/-- C5: the no-good cut is violated by the rejected candidate itself and
satisfied by every other binary marking: `m` satisfies the cut for `mstar`
iff `m ≠ mstar`.  Hence any optimal solution found after the cut is injected
differs from `mstar`. -/
theorem cut_excludes_exactly {n : ℕ} (mstar m : Fin n → Bool) :
    cutSat mstar m ↔ m ≠ mstar := by
  constructor
  · intro hcut heq
    subst heq
    have hA : ∑ i ∈ S1 m, mval m i = ((S1 m).card : ℤ) := by
      have hone : ∀ i ∈ S1 m, mval m i = 1 := by
        intro i hi
        have h2 : m i = true := (Finset.mem_filter.mp hi).2
        simp [mval, h2]
      rw [Finset.sum_congr rfl hone]
      simp
    have hB : ∑ i ∈ S0 m, mval m i = 0 := by
      have hzero : ∀ i ∈ S0 m, mval m i = 0 := by
        intro i hi
        have h2 : m i = false := (Finset.mem_filter.mp hi).2
        simp [mval, h2]
      rw [Finset.sum_congr rfl hzero]
      simp
    rw [cutSat, hA, hB] at hcut
    omega
  · intro hne
    have ⟨j, hj⟩ : ∃ j, m j ≠ mstar j := by
      by_contra hall
      push_neg at hall
      exact hne (funext hall)
    cases hmj : mstar j with
    | true =>
      have hmval : mval m j = 0 := by
        have : m j = false := by
          cases hm : m j
          · rfl
          · exact absurd (hm.trans hmj.symm) hj
        simp [mval, this]
      have hjS1 : j ∈ S1 mstar := Finset.mem_filter.mpr ⟨Finset.mem_univ j, hmj⟩
      have hA : ∑ i ∈ S1 mstar, mval m i ≤ ((S1 mstar).card : ℤ) - 1 := by
        rw [← Finset.sum_erase_add _ _ hjS1, hmval, add_zero]
        calc ∑ i ∈ (S1 mstar).erase j, mval m i ≤
              (((S1 mstar).erase j).card : ℤ) := sum_mval_le_card m _
          _ = ((S1 mstar).card : ℤ) - 1 := by
              rw [Finset.card_erase_of_mem hjS1]
              have : 1 ≤ (S1 mstar).card := Finset.card_pos.mpr ⟨j, hjS1⟩
              push_cast [Nat.cast_sub this]
              ring
      have hB : 0 ≤ ∑ i ∈ S0 mstar, mval m i :=
        Finset.sum_nonneg (fun i _ => mval_nonneg m i)
      rw [cutSat]
      omega
    | false =>
      have hmj' : m j = true := by
        cases hm : m j
        · exact absurd (hm.trans hmj.symm) hj
        · rfl
      have hjS0 : j ∈ S0 mstar := Finset.mem_filter.mpr ⟨Finset.mem_univ j, hmj⟩
      have hA : ∑ i ∈ S1 mstar, mval m i ≤ ((S1 mstar).card : ℤ) :=
        sum_mval_le_card m _
      have hB : 1 ≤ ∑ i ∈ S0 mstar, mval m i := by
        have hval : mval m j = 1 := by simp [mval, hmj']
        have := Finset.single_le_sum (fun i _ => mval_nonneg m i) hjS0
        omega
      rw [cutSat]
      omega

/-- Conditional soundness of the outer loop, isolating where the deployed
pipeline goes wrong: when `pick` returns score-maximal feasible candidates
(the solver's guarantee), the oracle decides exactly some set `Reach`, and
`Reach ⊆ F`, the first candidate the oracle confirms maximizes the score over
`Reach`, and `none` is returned only when `Reach` is empty.  The code feeds
this loop an oracle that is *not* exact for reachability (`symbolic_reach`
over-approximates), which `optimize_loop_returns_unreachable` exhibits. -/
theorem ilpLoop_pick_none {n : ℕ} (oracle : (Fin n → Bool) → Bool)
    (score : (Fin n → Bool) → ℤ)
    (pick : (F : Finset (Fin n → Bool)) → Option {x : Fin n → Bool // x ∈ F})
    (F : Finset (Fin n → Bool)) (hp : pick F = none) :
    ilpLoop oracle score pick F = none := by
  unfold ilpLoop
  rw [hp]

theorem ilpLoop_pick_some {n : ℕ} (oracle : (Fin n → Bool) → Bool)
    (score : (Fin n → Bool) → ℤ)
    (pick : (F : Finset (Fin n → Bool)) → Option {x : Fin n → Bool // x ∈ F})
    (F : Finset (Fin n → Bool)) (x : {x : Fin n → Bool // x ∈ F})
    (hp : pick F = some x) :
    ilpLoop oracle score pick F =
      if oracle x.val then some (x.val, score x.val)
      else ilpLoop oracle score pick (F.erase x.val) := by
  conv_lhs => unfold ilpLoop
  rw [hp]

theorem optimize_first_hit_optimal {n : ℕ} (w : Fin n → ℤ)
    (oracle : (Fin n → Bool) → Bool)
    (pick : (F : Finset (Fin n → Bool)) → Option {x : Fin n → Bool // x ∈ F})
    (Reach F : Finset (Fin n → Bool))
    (hpick : ∀ F x, pick F = some x → ∀ y ∈ F, scoreW w y ≤ scoreW w x.val)
    (hempty : ∀ F, pick F = none → F = ∅)
    (horacle : ∀ m, oracle m = true ↔ m ∈ Reach)
    (hsub : Reach ⊆ F) :
    (∀ m s, ilpLoop oracle (scoreW w) pick F = some (m, s) →
      m ∈ Reach ∧ s = scoreW w m ∧ ∀ y ∈ Reach, scoreW w y ≤ scoreW w m)
    ∧ (ilpLoop oracle (scoreW w) pick F = none → Reach = ∅) := by
  revert hsub
  refine Finset.strongInductionOn F ?_
  intro F ih hsub
  cases hp : pick F with
  | none =>
    rw [ilpLoop_pick_none oracle (scoreW w) pick F hp]
    refine ⟨fun m s hsome => ?_, fun _ => ?_⟩
    · cases hsome
    · have hF := hempty F hp
      subst hF
      exact Finset.subset_empty.mp hsub
  | some x =>
    rw [ilpLoop_pick_some oracle (scoreW w) pick F x hp]
    by_cases ho : oracle x.val = true
    · simp only [ho, if_true]
      refine ⟨fun m s hsome => ?_, fun hnone => ?_⟩
      · have hinj := Option.some.inj hsome
        have hm : x.val = m := congrArg Prod.fst hinj
        have hs : scoreW w x.val = s := congrArg Prod.snd hinj
        subst hm
        subst hs
        exact ⟨(horacle x.val).mp ho, rfl, fun y hy => hpick F x hp y (hsub hy)⟩
      · cases hnone
    · simp only [ho, if_false]
      have hxnot : x.val ∉ Reach := fun hmem => ho ((horacle x.val).mpr hmem)
      have hsub2 : Reach ⊆ F.erase x.val := fun y hy =>
        Finset.mem_erase.mpr ⟨fun he => hxnot (he ▸ hy), hsub hy⟩
      exact ih (F.erase x.val) (Finset.erase_ssubset x.property) hsub2

theorem maskOfBits_bit (b : Bool) (bs : List Bool) :
    maskOfBits (b :: bs) = Nat.bit b (maskOfBits bs) := by
  cases b <;> simp [maskOfBits, Nat.bit] <;> ring

theorem testBit_maskOfBits (l : List Bool) (k : Nat) :
    (maskOfBits l).testBit k = l.getD k false := by
  induction l generalizing k with
  | nil => simp [maskOfBits, Nat.zero_testBit]
  | cons b bs ih =>
    rw [maskOfBits_bit]
    cases k with
    | zero => rw [Nat.testBit_bit_zero]; rfl
    | succ k => rw [Nat.testBit_bit_succ, ih]; rfl

theorem maskOfBits_lt (l : List Bool) : maskOfBits l < 2 ^ l.length := by
  induction l with
  | nil => simp [maskOfBits]
  | cons b bs ih =>
    have : maskOfBits (b :: bs) ≤ 2 * maskOfBits bs + 1 := by
      cases b <;> simp [maskOfBits] <;> omega
    simp only [List.length_cons, pow_succ]
    omega

theorem testBit_packT {n : ℕ} (m : Fin n → Bool) (k : Nat) :
    (packT m).testBit k = if h : k < n then m ⟨k, h⟩ else false := by
  rw [packT, testBit_maskOfBits]
  by_cases h : k < n
  · rw [dif_pos h]
    have hlen : k < (List.ofFn m).length := by simpa using h
    rw [List.getD_eq_getElem _ _ hlen]
    simp
  · rw [dif_neg h]
    exact List.getD_eq_default _ _ (by simpa using Nat.le_of_not_lt h)

theorem packT_lt {n : ℕ} (m : Fin n → Bool) : packT m < 2 ^ n := by
  have := maskOfBits_lt (List.ofFn m)
  simpa [packT] using this

theorem mem_allMarkings {n : ℕ} (m : Fin n → Bool) : m ∈ allMarkings n := by
  refine List.mem_map.mpr ⟨packT m, List.mem_range.mpr (packT_lt m), ?_⟩
  funext i
  rw [testBit_packT]
  simp [i.isLt]

theorem pickMax_opt {n : ℕ} (score : (Fin n → Bool) → ℤ)
    (F : Finset (Fin n → Bool)) (x : {x : Fin n → Bool // x ∈ F})
    (hp : pickMax score F = some x) :
    ∀ y ∈ F, score y ≤ score x.val := by
  intro y hy
  unfold pickMax at hp
  split at hp
  · cases hp
  · rename_i z hm
    have hz : z = x.val := congrArg Subtype.val (Option.some.inj hp)
    subst hz
    have hymem : y ∈ (allMarkings n).filter (fun m => decide (m ∈ F)) :=
      List.mem_filter.mpr ⟨mem_allMarkings y, decide_eq_true hy⟩
    exact List.le_of_mem_argmax hymem (Option.mem_def.mpr hm)

theorem pickMax_none {n : ℕ} (score : (Fin n → Bool) → ℤ)
    (F : Finset (Fin n → Bool)) (hp : pickMax score F = none) : F = ∅ := by
  unfold pickMax at hp
  split at hp
  · rename_i hm
    have hnil := List.argmax_eq_none.mp hm
    refine Finset.eq_empty_iff_forall_not_mem.mpr (fun y hy => ?_)
    have hymem : y ∈ (allMarkings n).filter (fun m => decide (m ∈ F)) :=
      List.mem_filter.mpr ⟨mem_allMarkings y, decide_eq_true hy⟩
    rw [hnil] at hymem
    cases hymem
  · cases hp

/-- The conditional-soundness statement exercised at a concrete instance:
the loop run with the best-first solver `pickMax` on a one-place net. -/
theorem optimize_first_hit_optimal_witness :
    (∀ m s, ilpLoop oracleOne (scoreW wOne) (pickMax (scoreW wOne))
        Finset.univ = some (m, s) →
      m ∈ reachOne ∧ s = scoreW wOne m ∧
        ∀ y ∈ reachOne, scoreW wOne y ≤ scoreW wOne m)
    ∧ (ilpLoop oracleOne (scoreW wOne) (pickMax (scoreW wOne))
        Finset.univ = none → reachOne = ∅) :=
  optimize_first_hit_optimal wOne oracleOne (pickMax (scoreW wOne))
    reachOne Finset.univ
    (fun F x hp y hy => pickMax_opt (scoreW wOne) F x hp y hy)
    (fun F hp => pickMax_none (scoreW wOne) F hp)
    (fun m => by simp [oracleOne])
    (Finset.subset_univ _)

theorem buildDeadlockCons_none (trans : List (List Nat × List Nat))
    (h : ∃ t ∈ trans, t.1 = [] ∧ t.2.filter (fun i => decide (i ∉ t.1)) = []) :
    buildDeadlockCons trans = none := by
  induction trans with
  | nil =>
    obtain ⟨t, ht, -⟩ := h
    cases ht
  | cons t ts ih =>
    obtain ⟨u, hu, hupre, hupure⟩ := h
    rcases List.mem_cons.mp hu with rfl | hu
    · simp only [buildDeadlockCons]
      rw [if_pos hupure, if_pos hupre]
    · have hrec := ih ⟨u, hu, hupre, hupure⟩
      simp only [buildDeadlockCons]
      by_cases h1 : t.2.filter (fun i => decide (i ∉ t.1)) = []
      · rw [if_pos h1]
        by_cases h2 : t.1 = []
        · rw [if_pos h2]
        · rw [if_neg h2, hrec]
          rfl
      · rw [if_neg h1, hrec]
        rfl

/-- C7: if some transition has an empty pre-set and an empty pure-output set,
the deadlock task returns `None` while building the model — for every
possible solver/oracle phase, so neither is ever invoked. -/
theorem deadlock_short_circuit (trans : List (List Nat × List Nat))
    (h : ∃ t ∈ trans, t.1 = [] ∧ t.2.filter (fun i => decide (i ∉ t.1)) = []) :
    ∀ search, find_deadlock trans search = none := by
  intro search
  simp [find_deadlock, buildDeadlockCons_none trans h]

/-- C7 witness: a net with one transition with no inputs and no outputs,
under a search phase that would otherwise report a deadlock. -/
theorem deadlock_short_circuit_witness :
    find_deadlock [([], [])] (fun _ => some []) = none :=
  deadlock_short_circuit [([], [])]
    ⟨([], []), List.mem_singleton_self _, rfl, rfl⟩ (fun _ => some [])

/-- C10: the tuple-based and bitmask-based firing functions agree — on any
tuple marking, `fire` succeeds iff `fire_mask` does on the packed mask, and
then returns `mask_to_tuple` of `fire_mask`'s result.  (The masks of a
constructed net have bits only below the place count.) -/
theorem fire_tuple_mask_agreement {n : ℕ} (m : Fin n → Bool) (pre post : Nat)
    (hpre : pre < 2 ^ n) (hpost : post < 2 ^ n) :
    fireT m pre post =
      Option.map (mask_to_tuple n) (fire_mask (packT m) pre post) := by
  have hPbit : ∀ i, n ≤ i → pre.testBit i = false := fun i hi =>
    Nat.testBit_eq_false_of_lt
      (lt_of_lt_of_le hpre (Nat.pow_le_pow_right (by norm_num) hi))
  have hpackbit : ∀ p : Fin n, (packT m).testBit p.val = m p := by
    intro p
    rw [testBit_packT, dif_pos p.isLt]
  have hpackhigh : ∀ i, n ≤ i → (packT m).testBit i = false := by
    intro i hi
    rw [testBit_packT, dif_neg (Nat.not_lt.mpr hi)]
  by_cases h1 : ∃ p : Fin n, pre.testBit p.val = true ∧ m p = false
  · have hne : ¬ ((packT m &&& pre) = pre) := by
      obtain ⟨p, hp, hmp⟩ := h1
      rw [land_eq_right_iff]
      intro hall
      have hbit := hall p.val hp
      rw [hpackbit p, hmp] at hbit
      cases hbit
    simp [fireT, h1, fire_mask, hne]
  · have hen : (packT m &&& pre) = pre := by
      rw [land_eq_right_iff]
      intro i hi
      have hin : i < n := by
        by_contra hni
        rw [hPbit i (Nat.le_of_not_lt hni)] at hi
        cases hi
      cases hm : m ⟨i, hin⟩ with
      | false => exact absurd ⟨⟨i, hin⟩, hi, hm⟩ h1
      | true => rw [testBit_packT, dif_pos hin, hm]
    by_cases h2 : ∃ p : Fin n, post.testBit p.val = true ∧
        (if pre.testBit p.val then false else m p) = true
    · obtain ⟨p, hp, hm1⟩ := h2
      have hprep : pre.testBit p.val = false := by
        cases hpp : pre.testBit p.val
        · rfl
        · rw [if_pos hpp] at hm1
          cases hm1
      rw [if_neg (by simp [hprep])] at hm1
      have hnsafe : ¬ (packT m &&& andNot post pre = 0) := by
        rw [safety_check_iff]
        intro hall
        have hc := hall p.val hp hprep
        rw [hpackbit p, hm1] at hc
        cases hc
      simp [fireT, h1, fire_mask, hen, hnsafe]
      exact ⟨p, hp, hprep, hm1⟩
    · have hsafe : packT m &&& andNot post pre = 0 := by
        rw [safety_check_iff]
        intro i hposti hprei
        by_cases hin : i < n
        · cases hm : m ⟨i, hin⟩ with
          | false => rw [testBit_packT, dif_pos hin, hm]
          | true =>
            exact absurd ⟨⟨i, hin⟩, hposti, by simp [hprei, hm]⟩ h2
        · exact hpackhigh i (Nat.le_of_not_lt hin)
      have hfm : fire_mask (packT m) pre post =
          some (andNot (packT m) pre ||| post) := by
        simp [fire_mask, hen, hsafe]
      rw [hfm]
      unfold fireT
      rw [if_neg h1, if_neg h2]
      refine congrArg some (funext fun p => ?_)
      show _ = (andNot (packT m) pre ||| post).testBit p.val
      rw [Nat.testBit_lor, testBit_andNot, hpackbit p]
      cases post.testBit p.val <;> cases pre.testBit p.val <;> cases m p <;> simp

/-- C10 witness: one marked place, a transition consuming it. -/
theorem fire_tuple_mask_agreement_witness :
    fireT (fun _ : Fin 1 => true) 1 0 =
      Option.map (mask_to_tuple 1) (fire_mask (packT (fun _ : Fin 1 => true)) 1 0) :=
  fire_tuple_mask_agreement (fun _ : Fin 1 => true) 1 0 (by norm_num) (by norm_num)

theorem mem_F4_of_low_bits (m : Fin 4 → Bool)
    (h2 : m ⟨2, by norm_num⟩ = false) (h3 : m ⟨3, by norm_num⟩ = false) :
    m ∈ F4 := by
  have hmEq : m = mask_to_tuple 4 (packT m) := by
    funext i
    rw [mask_to_tuple, testBit_packT, dif_pos i.isLt]
  have hb : packT m < 16 := by
    have h := packT_lt m
    norm_num at h
    exact h
  have hb2 : (packT m).testBit 2 = false := by
    rw [testBit_packT, dif_pos (by norm_num : (2 : ℕ) < 4)]
    exact h2
  have hb3 : (packT m).testBit 3 = false := by
    rw [testBit_packT, dif_pos (by norm_num : (3 : ℕ) < 4)]
    exact h3
  have hlt4 : packT m < 4 := by
    set k := packT m with hk
    interval_cases k <;>
      first
        | omega
        | exact absurd hb2 (by decide)
        | exact absurd hb3 (by decide)
  have hcases : packT m = 0 ∨ packT m = 1 ∨ packT m = 2 ∨ packT m = 3 := by omega
  rw [hmEq]
  rcases hcases with h | h | h | h <;> rw [h] <;> decide

/-- On `net4B` the ILP's state equation (one equation per place, incidence
`incC`) has exactly the four binary solutions of `F4`: p2 and p3 are forced
empty, p0 and p1 are free. -/
theorem stateEq_iff_mem_F4 (m : Fin 4 → Bool) :
    (∃ σ : Fin 3 → ℕ, ∀ p < 4, bitZ (packT m) p =
        bitZ net4B.initialMask p + ∑ t : Fin 3, incC net4B p t * (σ t : ℤ)) ↔
      m ∈ F4 := by
  constructor
  · rintro ⟨σ, hσ⟩
    have h2lt : (2 : ℕ) < 4 := by norm_num
    have h3lt : (3 : ℕ) < 4 := by norm_num
    have e2 := hσ 2 h2lt
    have e3 := hσ 3 h3lt
    rw [Fin.sum_univ_three] at e2 e3
    have c2 : bitZ net4B.initialMask 2 = 0 := by decide
    have c3 : bitZ net4B.initialMask 3 = 0 := by decide
    have i20 : incC net4B 2 (0 : Fin 3) = 0 := by decide
    have i21 : incC net4B 2 (1 : Fin 3) = 1 := by decide
    have i22 : incC net4B 2 (2 : Fin 3) = -1 := by decide
    have i30 : incC net4B 3 (0 : Fin 3) = 0 := by decide
    have i31 : incC net4B 3 (1 : Fin 3) = -1 := by decide
    have i32 : incC net4B 3 (2 : Fin 3) = 1 := by decide
    rw [c2, i20, i21, i22] at e2
    rw [c3, i30, i31, i32] at e3
    have hp2 : bitZ (packT m) 2 = if m ⟨2, h2lt⟩ then 1 else 0 := by
      rw [bitZ, testBit_packT, dif_pos h2lt]
    have hp3 : bitZ (packT m) 3 = if m ⟨3, h3lt⟩ then 1 else 0 := by
      rw [bitZ, testBit_packT, dif_pos h3lt]
    rw [hp2] at e2
    rw [hp3] at e3
    cases h2v : m ⟨2, h2lt⟩ <;> cases h3v : m ⟨3, h3lt⟩ <;>
      rw [h2v] at e2 <;> rw [h3v] at e3 <;> simp at e2 e3
    · exact mem_F4_of_low_bits m h2v h3v
    · omega
    · omega
    · omega
  · intro hmem
    simp only [F4, Finset.mem_insert, Finset.mem_singleton] at hmem
    rcases hmem with rfl | rfl | rfl | rfl
    · exact ⟨fun t => [1, 2, 2].getD t.val 0, by decide⟩
    · exact ⟨fun _ => 1, by decide⟩
    · exact ⟨fun t => [0, 1, 1].getD t.val 0, by decide⟩
    · exact ⟨fun _ => 0, by decide⟩

theorem ilpLoop_net4_eval :
    ilpLoop oracle4 (scoreW w4) (pickMax (scoreW w4)) F4 =
      some (mask_to_tuple 4 1, 0) := by
  have hp0 : pickMax (scoreW w4) F4 = some ⟨mask_to_tuple 4 0, by decide⟩ := by decide
  rw [ilpLoop_pick_some oracle4 (scoreW w4) (pickMax (scoreW w4)) F4 _ hp0]
  rw [if_neg (by decide : ¬ (oracle4 (mask_to_tuple 4 0) = true))]
  have hp1 : pickMax (scoreW w4) (F4.erase (mask_to_tuple 4 0)) =
      some ⟨mask_to_tuple 4 1, by decide⟩ := by decide
  rw [ilpLoop_pick_some oracle4 (scoreW w4) (pickMax (scoreW w4))
    (F4.erase (mask_to_tuple 4 0)) _ hp1]
  rw [if_pos (by decide : oracle4 (mask_to_tuple 4 1) = true)]
  decide

/-- C4, refuted at the failing input: on `net4B`/`net4S` with weights
w = (0,−1,0,0), the explicit reachable set is exactly {(1,1,0,0)} (mask 3,
score −1), yet the symbolic oracle's set also accepts the unreachable mask 1
= (1,0,0,0); `F4` is exactly the binary solution set of the state equation,
and the maximization loop — run best-first over `F4` with the code's
symbolic oracle — returns the unreachable marking (1,0,0,0) with score 0,
strictly above the maximum of w·M over the markings that are actually
reachable.  The claimed optimality over reachable markings therefore fails
on this code; the cause is the missing 1-safety guard recorded for C1/C2. -/
theorem optimize_loop_returns_unreachable :
    reachable_markings_bfs net4B none = [3]
    ∧ symbolic_reach net4S = {3, 1}
    ∧ (∀ m : Fin 4 → Bool,
        (∃ σ : Fin 3 → ℕ, ∀ p < 4, bitZ (packT m) p =
            bitZ net4B.initialMask p + ∑ t : Fin 3, incC net4B p t * (σ t : ℤ)) ↔
          m ∈ F4)
    ∧ ilpLoop oracle4 (scoreW w4) (pickMax (scoreW w4)) F4 =
        some (mask_to_tuple 4 1, 0)
    ∧ packT (mask_to_tuple 4 1) ∉ reachable_markings_bfs net4B none
    ∧ scoreW w4 (mask_to_tuple 4 3) = -1
    ∧ scoreW w4 (mask_to_tuple 4 1) = 0 :=
  ⟨by decide, by decide, stateEq_iff_mem_F4, ilpLoop_net4_eval,
    by decide, by decide, by decide⟩

end PetriNet
